import Mathlib

/-!
Verification development for the dock-entry lifecycle and scratch-launcher
management subsystem of dde-daemon (package dock, file
dock_manager_dock_app.go).

The Go source is shallowly embedded: pure helpers become Lean functions,
file-system effects are explicit state passing over a `World` value that
carries the file store together with fault flags for each kind of I/O
failure, and external collaborators that are declared but not defined in
the shown source (launcher resolver, window re-identification, path
encoding) are fields of an `Env` record, modelled from the specification.
-/

namespace Dock

/-! ## Go path/filepath semantics (Unix rules), over character lists -/

/-- splitSlash splits a character list on every slash character, keeping
empty components, exactly as the component decomposition used by Go's
path/filepath.Clean does. -/
def splitSlash : List Char → List (List Char)
  | [] => [[]]
  | c :: cs =>
    if c = '/' then [] :: splitSlash cs
    else
      match splitSlash cs with
      | [] => [[c]]
      | g :: gs => (c :: g) :: gs

/-- cleanStep is one step of filepath.Clean's element processing: empty and
dot elements are dropped, a dotdot element pops the previous element when
possible (and is dropped entirely on a rooted path), and any other element
is appended. -/
def cleanStep (rooted : Prop) [Decidable rooted] (out : List (List Char)) (c : List Char) :
    List (List Char) :=
  if c = [] ∨ c = ['.'] then out
  else if c = ['.', '.'] then
    if out ≠ [] ∧ out.getLast? ≠ some ['.', '.'] then out.dropLast
    else if rooted then out
    else out ++ [['.', '.']]
  else out ++ [c]

/-- joinComps rebuilds a path body from processed components, inserting a
slash between adjacent components. -/
def joinComps : List (List Char) → List Char
  | [] => []
  | [c] => c
  | c :: c2 :: cs => c ++ '/' :: joinComps (c2 :: cs)

/-- cleanCore is the element pipeline of filepath.Clean: split on slashes,
process the elements, and rebuild the path body. -/
def cleanCore (rooted : Prop) [Decidable rooted] (l : List Char) : List Char :=
  joinComps (List.foldl (cleanStep rooted) [] (splitSlash l))

/-- goClean is Go's path/filepath.Clean for Unix paths: collapse repeated
slashes, drop dot elements, resolve dotdot elements, return a dot for an
empty result (or a single slash for a rooted one). -/
def goClean (s : String) : String :=
  match s.data with
  | [] => "."
  | c :: _ =>
    let body := cleanCore (c = '/') s.data
    if c = '/' then ⟨'/' :: body⟩
    else if body = [] then "." else ⟨body⟩

/-- dirPre keeps everything up to and including the final slash of a
character list (empty when there is no slash), mirroring the prefix Go's
filepath.Dir hands to Clean. -/
def dirPre (l : List Char) : List Char :=
  (l.reverse.dropWhile (fun c => c ≠ '/')).reverse

/-- goDir is Go's filepath.Dir for Unix paths: all but the last element of
the path, cleaned. -/
def goDir (s : String) : String :=
  goClean ⟨dirPre s.data⟩

/-- goBase is Go's filepath.Base for Unix paths: the last element after
trailing slashes are removed, with a dot for the empty path and a slash for
an all-slash path. -/
def goBase (s : String) : String :=
  match s.data with
  | [] => "."
  | _ :: _ =>
    let r := s.data.reverse.dropWhile (fun c => c = '/')
    match r with
    | [] => "/"
    | _ :: _ => ⟨(r.takeWhile (fun c => c ≠ '/')).reverse⟩

/-- goJoin is Go's filepath.Join on two elements: empty elements are
ignored, the rest are joined with a slash and cleaned; all-empty input
yields the empty string. -/
def goJoin (a b : String) : String :=
  if a = "" then (if b = "" then "" else goClean b)
  else if b = "" then goClean a
  else goClean ⟨a.data ++ '/' :: b.data⟩

/-- goExt is Go's filepath.Ext: the suffix starting at the final dot in the
final slash-separated element of the path, empty when that element has no
dot. -/
def goExt (s : String) : String :=
  let fin := s.data.reverse.takeWhile (fun c => c ≠ '/')
  let e := fin.takeWhile (fun c => c ≠ '.')
  if e.length = fin.length then "" else ⟨(e ++ ['.']).reverse⟩

/-! ## File store and fault model -/

/-- FileEnt is one stored file: its textual content and its permission
bits. -/
structure FileEnt where
  content : String
  mode : Nat
  deriving DecidableEq, Repr

/-- Fs is the file store, an association list from absolute path to file. -/
def Fs : Type := List (String × FileEnt)

/-- fsLookup finds the file stored at a path, if any. -/
def fsLookup (fs : Fs) (p : String) : Option FileEnt :=
  match fs with
  | [] => none
  | kv :: rest => if kv.1 = p then some kv.2 else fsLookup rest p

/-- fsErase removes the file stored at a path (a no-op when absent). -/
def fsErase (fs : Fs) (p : String) : Fs :=
  match fs with
  | [] => []
  | kv :: rest => if kv.1 = p then fsErase rest p else kv :: fsErase rest p

/-- fsSet stores a file at a path, replacing any previous file there. -/
def fsSet (fs : Fs) (p : String) (f : FileEnt) : Fs :=
  (p, f) :: fsErase fs p

/-- World is the explicit I/O state threaded through the embedded
operations: the file store plus one fault flag per kind of file-system
operation, so that every error path of the Go code is reachable in the
model. -/
structure World where
  fs : Fs
  failMkdir : Bool
  failWrite : String → Bool
  failRemove : String → Bool

/-- isFileExist embeds dutils.IsFileExist: whether a file is present at the
path. -/
def isFileExist (w : World) (p : String) : Bool :=
  (fsLookup w.fs p).isSome

/-- ioutilWriteFile embeds ioutil.WriteFile: fails (world unchanged) when
the write fault flag is set for the path, otherwise stores the content with
the given mode. -/
def ioutilWriteFile (w : World) (p content : String) (mode : Nat) :
    Option String × World :=
  if w.failWrite p then (some "write failed", w)
  else (none, { w with fs := fsSet w.fs p ⟨content, mode⟩ })

/-- osMkdirAll embeds os.MkdirAll on the scratch directory: directories are
not tracked in the file store, so it only consults the mkdir fault flag;
pre-existence of the directory is not an error. -/
def osMkdirAll (w : World) : Option String × World :=
  if w.failMkdir then (some "mkdir failed", w) else (none, w)

/-- osRemove embeds os.Remove: an error when the file is absent or the
remove fault flag is set for the path, otherwise the file is erased. -/
def osRemove (w : World) (p : String) : Option String × World :=
  if isFileExist w p then
    if w.failRemove p then (some "remove failed", w)
    else (none, { w with fs := fsErase w.fs p })
  else (some "no such file", w)

/-- copyFileContents is modelled from the spec: the generic file-copy
utility (an out-of-scope collaborator) that copies the source file's
content verbatim to the destination; it fails when the source is absent or
the destination write fails. -/
def copyFileContents (w : World) (src dst : String) : Option String × World :=
  match fsLookup w.fs src with
  | none => (some "source not found", w)
  | some f =>
    if w.failWrite dst then (some "write failed", w)
    else (none, { w with fs := fsSet w.fs dst ⟨f.content, f.mode⟩ })

/-- dataUriToFile is modelled from the spec: materializes an inline-encoded
icon to the given scratch image file and returns that path, or fails on a
write fault (in which case the caller falls back to a generic icon). -/
def dataUriToFile (w : World) (uri p : String) : Except String String × World :=
  if w.failWrite p then (.error "write failed", w)
  else (.ok p, { w with fs := fsSet w.fs p ⟨uri, 0o644⟩ })

/-! ## Data model -/

/-- strStartsWith embeds Go's strings.HasPrefix: whether the second string
is a prefix of the first, checked on the character lists. -/
def strStartsWith (s pre : String) : Bool :=
  pre.data.isPrefixOf s.data

/-- AppInfo is the launcher metadata attached to an entry: the derived
identity token, the backing file path (GetFileName) and the installed flag
(IsInstalled). -/
structure AppInfo where
  innerId : String
  fileName : String
  installed : Bool
  deriving DecidableEq, Repr

/-- GetFileName embeds AppInfo.GetFileName. -/
def AppInfo.GetFileName (a : AppInfo) : String := a.fileName

/-- IsInstalled embeds AppInfo.IsInstalled. -/
def AppInfo.IsInstalled (a : AppInfo) : Bool := a.installed

/-- WindowInfo is the window data the dock code reads: the window-derived
identity, the display name, and the icon reference. -/
structure WindowInfo where
  innerId : String
  displayName : String
  icon : String
  deriving DecidableEq, Repr

def WindowInfo.getInnerId (x : WindowInfo) : String := x.innerId

def WindowInfo.getDisplayName (x : WindowInfo) : String := x.displayName

def WindowInfo.getIcon (x : WindowInfo) : String := x.icon

/-- AppEntry is the tracked representation of one application: stable
handle Id, correlation key innerId, dock flag, optional launcher metadata,
the representative current window, and the set of associated windows. -/
structure AppEntry where
  Id : String
  innerId : String
  IsDocked : Bool
  appInfo : Option AppInfo
  current : Option WindowInfo
  windows : List WindowInfo
  deriving DecidableEq, Repr

/-- setAppInfo embeds AppEntry.setAppInfo (modelled from the spec: replaces
the entry's launcher metadata; no file is released by the replacement). -/
def AppEntry.setAppInfo (e : AppEntry) (ai : Option AppInfo) : AppEntry :=
  { e with appInfo := ai }

/-- setPropIsDocked embeds AppEntry.setPropIsDocked: sets the dock flag
(the property-change notification is outside the model). -/
def AppEntry.setPropIsDocked (e : AppEntry) (b : Bool) : AppEntry :=
  { e with IsDocked := b }

/-- updateIcon refreshes derived display state only; it touches none of the
modelled fields. -/
def AppEntry.updateIcon (e : AppEntry) : AppEntry := e

/-- updateMenu refreshes derived display state only; it touches none of the
modelled fields. -/
def AppEntry.updateMenu (e : AppEntry) : AppEntry := e

/-- updateName refreshes derived display state only; it touches none of the
modelled fields. -/
def AppEntry.updateName (e : AppEntry) : AppEntry := e

/-- hasWindow is modelled from the spec: whether the entry still has at
least one associated window. -/
def AppEntry.hasWindow (e : AppEntry) : Bool :=
  !e.windows.isEmpty

/-- Env collects the process-wide configuration and the external
collaborators of the subsystem, all modelled from the spec: the fixed
scratch directory path, window re-identification (identity token plus
optional launcher metadata), the launcher resolver (its result is
dereferenced unconditionally at the call site, so it is modelled total),
the resolved launch command of a window, and the portable path encoding
used by persistence. -/
structure Env where
  scratchDir : String
  identifyWindow : WindowInfo → String × Option AppInfo
  newAppInfoFromFile : String → AppInfo
  getExecRes : WindowInfo → String
  zipDesktopPath : String → String

/-- getExec is modelled from the spec: the entry's resolved launch command,
taken from the current window for a window-backed entry. -/
def AppEntry.getExec (e : AppEntry) (env : Env) (_oneLine : Bool) : String :=
  match e.current with
  | some win => env.getExecRes win
  | none => ""

/-- windowHashPrefix is the prefix marking a window-derived identity;
the source comments state that such a desktop base name starts with w:. -/
def windowHashPrefix : String := "w:"

/-- Manager carries the tracked entry collection and the persisted
docked-apps property. -/
structure Manager where
  Entries : List AppEntry
  DockedApps : List String

/-- FilterDocked is modelled from the spec: filters the tracked entries to
those with the dock flag set. -/
def FilterDocked (l : List AppEntry) : List AppEntry :=
  l.filter (fun e => e.IsDocked)

/-- updEntry commits a mutated entry back into the tracked collection,
standing in for Go's in-place mutation through the shared pointer: every
slot holding the entry (matched by stable Id) now holds the new value. -/
def Manager.updEntry (m : Manager) (e : AppEntry) : Manager :=
  { m with Entries := m.Entries.map (fun x => if x.Id = e.Id then e else x) }

/-- removeAppEntry is modelled from the spec: destroys the entry, removing
it from the tracked set. -/
def Manager.removeAppEntry (m : Manager) (e : AppEntry) : Manager :=
  { m with Entries := m.Entries.filter (fun x => x.Id ≠ e.Id) }

/-! ## Scratch launcher store (dock_manager_dock_app.go) -/

/-- addDesktopExt is modelled from the spec: the descriptor file name is
the identity with the .desktop extension appended (left unchanged when the
extension is already there). -/
def addDesktopExt (name : String) : String :=
  if (".desktop").data.isSuffixOf name.data then name else name ++ ".desktop"

/-- trimDesktopExt is modelled from the spec: given any member of a scratch
asset set (descriptor, script, or image), the implementation strips the
extension to find the shared base name. -/
def trimDesktopExt (s : String) : String :=
  ⟨s.data.take (s.data.length - (goExt s).data.length)⟩

/-- dockedItemInfo mirrors the Go struct holding the template fields. -/
structure DockedItemInfo where
  Name : String
  Icon : String
  Exec : String

/-- dockedItemTemplate renders the fixed scratch descriptor template with
the Name, Exec and Icon fields substituted in that order, as the Go
fmt.Sprintf call does. -/
def dockedItemTemplate (name exec icon : String) : String :=
  "[Desktop Entry]\nName=" ++ name ++ "\nExec=" ++ exec ++ "\nIcon=" ++ icon ++
    "\nType=Application\nTerminal=false\nStartupNotify=false\n"

/-- createScratchDesktopFile embeds the Go function of the same name: it
writes the rendered descriptor under the scratch directory at the
identity-derived .desktop name with mode 0644 and returns the file name,
propagating a write failure. -/
def createScratchDesktopFile (env : Env) (w : World) (id title icon cmd : String) :
    Except String String × World :=
  let filename := goJoin env.scratchDir (addDesktopExt id)
  let dockedItem : DockedItemInfo := ⟨title, icon, cmd⟩
  let content := dockedItemTemplate dockedItem.Name dockedItem.Exec dockedItem.Icon
  match ioutilWriteFile w filename content 0o644 with
  | (some err, w1) => (.error err, w1)
  | (none, w1) => (.ok filename, w1)

/-- rmScratchStep is the loop body of removeScratchFiles: remove one
sibling of the shared base when it exists, keeping the world unchanged on a
removal failure (the failure is only logged). -/
def rmScratchStep (fileNoExt : String) (w1 : World) (ext : String) : World :=
  let file := fileNoExt ++ ext
  if isFileExist w1 file then (osRemove w1 file).2 else w1

/-- removeScratchFiles embeds the Go function of the same name: strip the
extension to find the shared base, then for each recognized extension
(.desktop, .sh, .png) remove the sibling when it exists; removal failures
are logged and swallowed, missing files are skipped. -/
def removeScratchFiles (w : World) (desktopFile : String) : World :=
  let fileNoExt := trimDesktopExt desktopFile
  [".desktop", ".sh", ".png"].foldl (rmScratchStep fileNoExt) w

/-- createScratchDesktopFileWithAppEntry embeds the Go function of the same
name: ensure the scratch directory, then either copy an existing descriptor
into the scratch directory under the identity-derived name, or, for a
window-only entry, resolve title and icon from the window (materializing an
inline icon, falling back to the empty icon on failure, then to the generic
icon), write the launch script with mode 0744, and create the descriptor
pointing Exec at the script with the %U placeholder appended. -/
def createScratchDesktopFileWithAppEntry (env : Env) (e : AppEntry) (w : World) :
    Except String String × World :=
  match osMkdirAll w with
  | (some err, w0) => (.error err, w0)
  | (none, w0) =>
    match e.appInfo with
    | some ai =>
      let desktopFile := ai.GetFileName
      let newDesktopFile := goJoin env.scratchDir (ai.innerId ++ ".desktop")
      match copyFileContents w0 desktopFile newDesktopFile with
      | (some err, w1) => (.error err, w1)
      | (none, w1) => (.ok newDesktopFile, w1)
    | none =>
      match e.current with
      | none => (.error "entry.current is nil", w0)
      | some cur =>
        let appId := cur.getInnerId
        let title := cur.getDisplayName
        let icon0 := cur.getIcon
        let iconW :=
          if strStartsWith icon0 "data:image" then
            match dataUriToFile w0 icon0 (goJoin env.scratchDir (appId ++ ".png")) with
            | (.error _, w1) => ("", w1)
            | (.ok path, w1) => (path, w1)
          else (icon0, w0)
        let icon := if iconW.1 = "" then "application-default-icon" else iconW.1
        let scriptContent := e.getExec env false
        let scriptFile := goJoin env.scratchDir (appId ++ ".sh")
        match ioutilWriteFile iconW.2 scriptFile scriptContent 0o744 with
        | (some err, w2) => (.error err, w2)
        | (none, w2) =>
          let cmd := scriptFile ++ " %U"
          createScratchDesktopFile env w2 appId title icon cmd

/-! ## Provenance classifier and state machine -/

/-- isFileInDir embeds the Go function of the same name: a file is in a
directory exactly when its immediate parent directory equals that
directory. -/
def isFileInDir (file dir : String) : Bool :=
  goDir file = dir

/-- needScratchDesktop embeds the Go function of the same name: true for
nil metadata, false for installed metadata, false when the backing file is
directly inside the scratch directory, true otherwise. -/
def needScratchDesktop (env : Env) (appInfo : Option AppInfo) : Bool :=
  match appInfo with
  | none => true
  | some ai =>
    if ai.IsInstalled then false
    else if isFileInDir ai.GetFileName env.scratchDir then false
    else true

/-- optFileName reads the backing file path of optional launcher metadata;
the Go code dereferences the metadata unconditionally here, which the
docked-entry invariant keeps safe. -/
def optFileName : Option AppInfo → String
  | some a => a.GetFileName
  | none => ""

/-- saveDockedApps embeds Manager.saveDockedApps: rebuild the persisted
docked list wholesale as the portable-encoded launcher file paths of the
docked entries, in iteration order. -/
def saveDockedApps (env : Env) (m : Manager) : Manager :=
  { m with DockedApps :=
      (FilterDocked m.Entries).map (fun e => env.zipDesktopPath (optFileName e.appInfo)) }

/-- dockEntry embeds Manager.dockEntry: a no-op reporting false with no
error when already docked; otherwise, when the classifier asks for a
scratch launcher, run synthesis — on failure return the error with the
entry untouched, on success attach the resolved metadata, refresh the icon
and adopt the synthesized identity; finally set the dock flag and refresh
the menu. -/
def dockEntry (env : Env) (e : AppEntry) (w : World) :
    (Bool × Option String) × AppEntry × World :=
  if e.IsDocked then ((false, none), e, w)
  else
    if needScratchDesktop env e.appInfo then
      match createScratchDesktopFileWithAppEntry env e w with
      | (.error err, w1) => ((false, some err), e, w1)
      | (.ok file, w1) =>
        let appInfo := env.newAppInfoFromFile file
        let e1 := ((e.setAppInfo (some appInfo)).updateIcon)
        let e2 := { e1 with innerId := appInfo.innerId }
        ((true, none), (e2.setPropIsDocked true).updateMenu, w1)
    else
      ((true, none), (e.setPropIsDocked true).updateMenu, w)

/-- undockEntry embeds Manager.undockEntry: a no-op when not docked or when
the metadata is nil; otherwise, when the backing descriptor is inside the
scratch directory, eagerly delete its scratch asset set; then either
destroy the entry when no window remains, or commit the field updates —
for a scratch-backed entry with a current window, a window-derived scratch
name keeps the window identity and clears the metadata, while a
descriptor-derived name re-runs window re-identification; finally clear the
dock flag, refresh derived state, and rebuild the persisted docked list. -/
def undockEntry (env : Env) (m : Manager) (e : AppEntry) (w : World) :
    Manager × World :=
  if !e.IsDocked then (m, w)
  else
    match e.appInfo with
    | none => (m, w)
    | some ai =>
      let desktop := ai.GetFileName
      let isDesktopInScratchDir := isFileInDir desktop env.scratchDir
      let w1 := if isDesktopInScratchDir then removeScratchFiles w ai.GetFileName else w
      let hasWin := e.hasWindow
      if !hasWin then
        (saveDockedApps env (m.removeAppEntry e), w1)
      else
        let e1 :=
          if isDesktopInScratchDir then
            match e.current with
            | some cur =>
              if strStartsWith (goBase desktop) windowHashPrefix then
                ({ e with innerId := cur.getInnerId }).setAppInfo none
              else
                let r := env.identifyWindow cur
                ({ e with innerId := r.1 }).setAppInfo r.2
            | none => e
          else e
        let e2 := (((e1.updateIcon).setPropIsDocked false).updateName).updateMenu
        (saveDockedApps env (m.updEntry e2), w1)

/-! ## Operation sequences over the manager state -/

/-- DockOp is one externally triggered transition on the tracked
collection: a user dock or undock request aimed at an entry by its stable
handle. -/
inductive DockOp where
  | dock (id : String)
  | undock (id : String)

/-- findEntry locates the tracked entry with the given stable handle. -/
def findEntry (m : Manager) (i : String) : Option AppEntry :=
  m.Entries.find? (fun e => e.Id = i)

/-- applyOp runs one transition: a dock request runs dockEntry on the
located entry, commits the mutated entry, and (as the spec directs the
caller to) rebuilds persistence after a successful dock; an undock request
runs undockEntry. A request naming no tracked entry does nothing. -/
def applyOp (env : Env) (s : Manager × World) (op : DockOp) : Manager × World :=
  match op with
  | .dock i =>
    match findEntry s.1 i with
    | none => s
    | some e =>
      let r := dockEntry env e s.2
      let m1 := s.1.updEntry r.2.1
      (if r.1.1 then saveDockedApps env m1 else m1, r.2.2)
  | .undock i =>
    match findEntry s.1 i with
    | none => s
    | some e => undockEntry env s.1 e s.2

/-- applyOps folds a sequence of transitions over the manager state. -/
def applyOps (env : Env) (s : Manager × World) (ops : List DockOp) : Manager × World :=
  ops.foldl (applyOp env) s

/-- dockedInv is the docked-entry invariant: every tracked entry with the
dock flag set carries launcher metadata. -/
def dockedInv (m : Manager) : Bool :=
  m.Entries.all (fun e => !e.IsDocked || e.appInfo.isSome)

/-! ## Path lemmas -/

/-- safeName states that a string is a filesystem-safe file name: nonempty,
slash-free, and not one of the two special dot names. -/
def safeName (n : String) : Prop :=
  n.data ≠ [] ∧ '/' ∉ n.data ∧ n.data ≠ ['.'] ∧ n.data ≠ ['.', '.']

theorem splitSlash_ne_nil (l : List Char) : splitSlash l ≠ [] := by
  cases l with
  | nil => simp [splitSlash]
  | cons c cs =>
    simp only [splitSlash]
    split
    · simp
    · cases h : splitSlash cs <;> simp

theorem splitSlash_append (xs ys : List Char) :
    splitSlash (xs ++ '/' :: ys) = splitSlash xs ++ splitSlash ys := by
  induction xs with
  | nil => simp [splitSlash]
  | cons c cs ih =>
    by_cases hc : c = '/'
    · subst hc; simp [splitSlash, ih]
    · simp only [List.cons_append, splitSlash, if_neg hc, List.append_eq]
      rw [ih]
      cases h : splitSlash cs with
      | nil => exact absurd h (splitSlash_ne_nil cs)
      | cons g gs => rfl

theorem splitSlash_no_slash (ys : List Char) (h : '/' ∉ ys) : splitSlash ys = [ys] := by
  induction ys with
  | nil => rfl
  | cons c cs ih =>
    simp only [List.mem_cons, not_or] at h
    simp only [splitSlash, if_neg (Ne.symm h.1)]
    rw [ih h.2]

theorem cleanStep_safe (r : Prop) [Decidable r] (out : List (List Char)) (n : List Char)
    (h1 : n ≠ []) (h2 : n ≠ ['.']) (h3 : n ≠ ['.', '.']) :
    cleanStep r out n = out ++ [n] := by
  simp [cleanStep, h1, h2, h3]

theorem joinComps_append_one : ∀ (out : List (List Char)) (n : List Char),
    joinComps (out ++ [n]) = if out = [] then n else joinComps out ++ '/' :: n
  | [], n => by simp [joinComps]
  | [c], n => by simp [joinComps]
  | c :: c2 :: cs, n => by
    have ih := joinComps_append_one (c2 :: cs) n
    simp only [List.cons_append] at ih ⊢
    rw [joinComps, ih]
    simp [joinComps, List.append_assoc]

theorem cleanOut_elems (r : Prop) [Decidable r] (comps : List (List Char)) (out : List (List Char))
    (h : ∀ x ∈ out, x ≠ [] ∧ x ≠ ['.']) :
    ∀ x ∈ List.foldl (cleanStep r) out comps, x ≠ [] ∧ x ≠ ['.'] := by
  induction comps generalizing out with
  | nil => simpa using h
  | cons c cs ih =>
    intro x hx
    refine ih (cleanStep r out c) ?_ x hx
    intro y hy
    unfold cleanStep at hy
    by_cases hA : c = [] ∨ c = ['.']
    · rw [if_pos hA] at hy; exact h y hy
    · rw [if_neg hA] at hy
      by_cases hB : c = ['.', '.']
      · rw [if_pos hB] at hy
        by_cases hC : out ≠ [] ∧ out.getLast? ≠ some ['.', '.']
        · rw [if_pos hC] at hy; exact h y (List.dropLast_subset _ hy)
        · rw [if_neg hC] at hy
          by_cases hr : r
          · rw [if_pos hr] at hy; exact h y hy
          · rw [if_neg hr] at hy
            rcases List.mem_append.1 hy with h1 | h1
            · exact h y h1
            · simp only [List.mem_singleton] at h1; subst h1; exact ⟨by simp, by simp⟩
      · rw [if_neg hB] at hy
        rcases List.mem_append.1 hy with h1 | h1
        · exact h y h1
        · simp only [List.mem_singleton] at h1
          subst h1
          rw [not_or] at hA
          exact ⟨hA.1, hA.2⟩

theorem joinComps_ne_nil (out : List (List Char)) (hne : out ≠ [])
    (h : ∀ x ∈ out, x ≠ []) : joinComps out ≠ [] := by
  cases out with
  | nil => exact absurd rfl hne
  | cons c cs =>
    cases cs with
    | nil => simpa [joinComps] using h c (by simp)
    | cons c2 cs2 => simp [joinComps]

theorem joinComps_ne_dot (out : List (List Char)) (h : ∀ x ∈ out, x ≠ [] ∧ x ≠ ['.']) :
    joinComps out ≠ ['.'] := by
  cases out with
  | nil => simp [joinComps]
  | cons c cs =>
    cases cs with
    | nil => simpa [joinComps] using (h c (by simp)).2
    | cons c2 cs2 =>
      simp only [joinComps]
      intro hcontra
      have hc := (h c (by simp)).1
      have hlen := congrArg List.length hcontra
      simp [List.length_append] at hlen
      have : 1 ≤ c.length := List.length_pos.2 hc
      omega

theorem strEta (s : String) : (⟨s.data⟩ : String) = s := by
  cases s
  rfl

theorem dropWhile_append_all (p : Char → Bool) (l1 l2 : List Char)
    (h : ∀ x ∈ l1, p x = true) :
    List.dropWhile p (l1 ++ l2) = List.dropWhile p l2 := by
  induction l1 with
  | nil => rfl
  | cons a t ih =>
    simp only [List.cons_append, List.dropWhile, h a (by simp)]
    exact ih fun x hx => h x (by simp [hx])

theorem dropWhile_all (p : Char → Bool) (l : List Char) (h : ∀ x ∈ l, p x = true) :
    List.dropWhile p l = [] := by
  have := dropWhile_append_all p l [] h
  simpa using this

theorem takeWhile_append_all (p : Char → Bool) (l1 l2 : List Char)
    (h : ∀ x ∈ l1, p x = true) :
    List.takeWhile p (l1 ++ l2) = l1 ++ List.takeWhile p l2 := by
  induction l1 with
  | nil => rfl
  | cons a t ih =>
    simp only [List.cons_append, List.takeWhile, h a (by simp), List.append_eq]
    rw [ih fun x hx => h x (by simp [hx])]

theorem cleanCore_append (r : Prop) [Decidable r] (l n : List Char) (hn1 : '/' ∉ n)
    (hn2 : n ≠ []) (hn3 : n ≠ ['.']) (hn4 : n ≠ ['.', '.']) :
    cleanCore r (l ++ '/' :: n) =
      (if List.foldl (cleanStep r) [] (splitSlash l) = [] then n
       else cleanCore r l ++ '/' :: n) := by
  unfold cleanCore
  rw [splitSlash_append, splitSlash_no_slash n hn1, List.foldl_append]
  simp only [List.foldl_cons, List.foldl_nil]
  rw [cleanStep_safe r _ n hn2 hn3 hn4, joinComps_append_one]

theorem clean_fix_data_ne_nil (d : String) (hd : goClean d = d) : d.data ≠ [] := by
  intro h0
  obtain ⟨ld⟩ := d
  simp only at h0
  subst h0
  have h2 : (("." : String)) = (⟨[]⟩ : String) := hd
  simpa using congrArg String.data h2

theorem goClean_append_safe (d n : String) (hd : goClean d = d) (hn : safeName n) :
    goClean ⟨d.data ++ '/' :: n.data⟩ =
      if d = "/" then ⟨'/' :: n.data⟩ else if d = "." then n
      else ⟨d.data ++ '/' :: n.data⟩ := by
  obtain ⟨hne, hnoslash, hn3, hn4⟩ := hn
  have hdne := clean_fix_data_ne_nil d hd
  obtain ⟨ld⟩ := d
  simp only at hdne hd ⊢
  cases ld with
  | nil => exact absurd rfl hdne
  | cons c cs =>
    have hu : ∀ (x : List Char), goClean ⟨c :: x⟩ =
        (if c = '/' then (⟨'/' :: cleanCore (c = '/') (c :: x)⟩ : String)
         else if cleanCore (c = '/') (c :: x) = [] then "."
         else ⟨cleanCore (c = '/') (c :: x)⟩) := fun _ => rfl
    have hcons : (c :: cs) ++ '/' :: n.data = c :: (cs ++ '/' :: n.data) := by simp
    rw [hcons, hu (cs ++ '/' :: n.data)]
    have hcc := cleanCore_append (c = '/') (c :: cs) n.data hnoslash hne hn3 hn4
    rw [hcons] at hcc
    have helems := cleanOut_elems (c = '/') (splitSlash (c :: cs)) [] (by simp)
    rw [hu cs] at hd
    by_cases hr : c = '/'
    · rw [if_pos hr] at hd ⊢
      by_cases hout : List.foldl (cleanStep (c = '/')) [] (splitSlash (c :: cs)) = []
      · rw [if_pos hout] at hcc
        have hbody : cleanCore (c = '/') (c :: cs) = [] := by
          unfold cleanCore
          rw [hout]
          rfl
        rw [hbody] at hd
        have hdeq : (⟨c :: cs⟩ : String) = "/" := by
          rw [← hd]
        rw [if_pos hdeq, hcc]
      · rw [if_neg hout] at hcc
        have hbody : cleanCore (c = '/') (c :: cs) ≠ [] := by
          unfold cleanCore
          exact joinComps_ne_nil _ hout fun x hx => (helems x hx).1
        have hdeq : c :: cs = '/' :: cleanCore (c = '/') (c :: cs) :=
          (congrArg String.data hd).symm
        have hne1 : (⟨c :: cs⟩ : String) ≠ "/" := by
          intro h
          have h2 : c :: cs = ['/'] := congrArg String.data h
          have h5 := hdeq.symm.trans h2
          injection h5 with h3 h4
          exact hbody h4
        have hne2 : (⟨c :: cs⟩ : String) ≠ "." := by
          intro h
          have h2 : c :: cs = ['.'] := congrArg String.data h
          injection h2 with h3 h4
          rw [hr] at h3
          exact absurd h3 (by decide)
        rw [if_neg hne1, if_neg hne2, hcc]
        refine congrArg (fun l => (⟨l⟩ : String)) ?_
        conv_rhs => rw [← hcons, hdeq]
        simp
    · rw [if_neg hr] at hd ⊢
      by_cases hout : List.foldl (cleanStep (c = '/')) [] (splitSlash (c :: cs)) = []
      · rw [if_pos hout] at hcc
        have hbody : cleanCore (c = '/') (c :: cs) = [] := by
          unfold cleanCore
          rw [hout]
          rfl
        rw [hbody, if_pos rfl] at hd
        have hdq : (⟨c :: cs⟩ : String) = "." := hd.symm
        have hns : (⟨c :: cs⟩ : String) ≠ "/" := by
          rw [hdq]
          intro h
          have h2 : (['.'] : List Char) = ['/'] := congrArg String.data h
          exact absurd h2 (by decide)
        rw [if_neg hns, if_pos hdq, hcc]
        by_cases hb2 : n.data = []
        · exact absurd hb2 hne
        · rw [if_neg hb2]
      · rw [if_neg hout] at hcc
        have hbody : cleanCore (c = '/') (c :: cs) ≠ [] := by
          unfold cleanCore
          exact joinComps_ne_nil _ hout fun x hx => (helems x hx).1
        rw [if_neg hbody] at hd
        have hdeq : cleanCore (c = '/') (c :: cs) = c :: cs :=
          congrArg String.data hd
        have hns : (⟨c :: cs⟩ : String) ≠ "/" := by
          intro h
          have h2 : c :: cs = ['/'] := congrArg String.data h
          injection h2 with h3 h4
          exact hr h3
        have hnd : (⟨c :: cs⟩ : String) ≠ "." := by
          intro h
          have h2 : c :: cs = ['.'] := congrArg String.data h
          have h4 := joinComps_ne_dot
            (List.foldl (cleanStep (c = '/')) [] (splitSlash (c :: cs))) helems
          unfold cleanCore at hdeq
          rw [hdeq] at h4
          exact h4 h2
        rw [if_neg hns, if_neg hnd, hcc]
        have hb2 : cleanCore (c = '/') (c :: cs) ++ '/' :: n.data ≠ [] := by
          rw [hdeq]
          simp
        rw [if_neg hb2]
        simp [hdeq]

theorem dirPre_append (a b : List Char) (hb : '/' ∉ b) :
    dirPre (a ++ '/' :: b) = a ++ ['/'] := by
  unfold dirPre
  rw [List.reverse_append, List.reverse_cons]
  rw [List.append_assoc]
  rw [dropWhile_append_all _ b.reverse _ ?hall]
  case hall =>
    intro x hx
    have : x ∈ b := List.mem_reverse.1 hx
    simp only [decide_eq_true_eq]
    intro hxe
    exact hb (hxe ▸ this)
  simp [List.dropWhile]

theorem dirPre_no_slash (l : List Char) (h : '/' ∉ l) : dirPre l = [] := by
  unfold dirPre
  rw [dropWhile_all]
  · rfl
  · intro x hx
    have : x ∈ l := List.mem_reverse.1 hx
    simp only [decide_eq_true_eq]
    intro hxe
    exact h (hxe ▸ this)

theorem goClean_slashEnd (d : String) (hdne : d.data ≠ []) :
    goClean ⟨d.data ++ ['/']⟩ = goClean d := by
  obtain ⟨ld⟩ := d
  simp only at hdne ⊢
  cases ld with
  | nil => exact absurd rfl hdne
  | cons c cs =>
    have hu : ∀ (x : List Char), goClean ⟨c :: x⟩ =
        (if c = '/' then (⟨'/' :: cleanCore (c = '/') (c :: x)⟩ : String)
         else if cleanCore (c = '/') (c :: x) = [] then "."
         else ⟨cleanCore (c = '/') (c :: x)⟩) := fun _ => rfl
    have hcons : (c :: cs) ++ ['/'] = c :: (cs ++ ['/']) := by simp
    rw [hcons, hu (cs ++ ['/']), hu cs]
    have hcore : cleanCore (c = '/') (c :: (cs ++ ['/'])) = cleanCore (c = '/') (c :: cs) := by
      unfold cleanCore
      have h1 : c :: (cs ++ ['/']) = (c :: cs) ++ '/' :: [] := by simp
      rw [h1, splitSlash_append]
      have h2 : splitSlash [] = [[]] := rfl
      rw [h2, List.foldl_append]
      simp [cleanStep]
    rw [hcore]

theorem strNe_of_data_ne (a : String) (l : List Char) (h : a.data ≠ l) :
    a ≠ (⟨l⟩ : String) := by
  intro h2
  exact h (congrArg String.data h2)

theorem goDir_goJoin (d n : String) (hd : goClean d = d) (hn : safeName n) :
    goDir (goJoin d n) = d := by
  have hdne := clean_fix_data_ne_nil d hd
  have hdstr : d ≠ "" := by
    intro h
    rw [h] at hdne
    exact hdne rfl
  have hnne : n ≠ "" := by
    intro h
    rw [h] at hn
    exact hn.1 rfl
  unfold goJoin
  rw [if_neg hdstr, if_neg hnne]
  rw [goClean_append_safe d n hd hn]
  obtain ⟨hne, hnoslash, hn3, hn4⟩ := hn
  by_cases h1 : d = "/"
  · rw [if_pos h1]
    unfold goDir
    have h2 : dirPre ('/' :: n.data) = ['/'] := by
      have h3 : '/' :: n.data = [] ++ '/' :: n.data := rfl
      rw [h3, dirPre_append [] n.data hnoslash]
      rfl
    simp only [h2]
    rw [h1]
    decide
  · rw [if_neg h1]
    by_cases h2 : d = "."
    · rw [if_pos h2]
      unfold goDir
      rw [dirPre_no_slash n.data hnoslash]
      rw [h2]
      rfl
    · rw [if_neg h2]
      unfold goDir
      have h3 : dirPre (d.data ++ '/' :: n.data) = d.data ++ ['/'] :=
        dirPre_append d.data n.data hnoslash
      simp only [h3]
      rw [goClean_slashEnd d hdne, hd]

theorem goExt_append (b ext : String) (r : List Char) (hr : ext.data = '.' :: r)
    (_hne : r ≠ []) (hdot : '.' ∉ r) (hslash : '/' ∉ r) :
    goExt (b ++ ext) = ext := by
  unfold goExt
  have hdata : (b ++ ext).data = b.data ++ '.' :: r := by
    rw [String.data_append, hr]
  rw [hdata]
  rw [List.reverse_append, List.reverse_cons]
  rw [List.append_assoc]
  have hall : ∀ x ∈ r.reverse, (fun c => decide (c ≠ '/')) x = true := by
    intro x hx
    have : x ∈ r := List.mem_reverse.1 hx
    simp only [ne_eq, decide_not, Bool.not_eq_eq_eq_not, Bool.not_true, decide_eq_false_iff_not]
    intro hxe
    exact hslash (hxe ▸ this)
  rw [takeWhile_append_all _ r.reverse _ hall]
  simp only [List.singleton_append]
  have hdotslash : ('.' : Char) ≠ '/' := by decide
  have h4 : List.takeWhile (fun c => decide (c ≠ '/')) ('.' :: b.data.reverse)
      = '.' :: List.takeWhile (fun c => decide (c ≠ '/')) b.data.reverse := by
    simp [List.takeWhile]
  rw [h4]
  have hall2 : ∀ x ∈ r.reverse, (fun c => decide (c ≠ '.')) x = true := by
    intro x hx
    have : x ∈ r := List.mem_reverse.1 hx
    simp only [ne_eq, decide_not, Bool.not_eq_eq_eq_not, Bool.not_true, decide_eq_false_iff_not]
    intro hxe
    exact hdot (hxe ▸ this)
  rw [takeWhile_append_all _ r.reverse _ hall2]
  have h5 : List.takeWhile (fun c => decide (c ≠ '.'))
      ('.' :: List.takeWhile (fun c => decide (c ≠ '/')) b.data.reverse) = [] := by
    simp [List.takeWhile]
  rw [h5, List.append_nil]
  have hlen : r.reverse.length ≠
      (r.reverse ++ '.' :: List.takeWhile (fun c => decide (c ≠ '/')) b.data.reverse).length := by
    simp
  rw [if_neg hlen]
  have h6 : (r.reverse ++ ['.']).reverse = '.' :: r := by
    simp
  rw [h6]
  exact (congrArg (fun l => (⟨l⟩ : String)) hr.symm).trans (strEta ext)

theorem trimDesktopExt_append (b ext : String) (r : List Char) (hr : ext.data = '.' :: r)
    (hne : r ≠ []) (hdot : '.' ∉ r) (hslash : '/' ∉ r) :
    trimDesktopExt (b ++ ext) = b := by
  unfold trimDesktopExt
  rw [goExt_append b ext r hr hne hdot hslash]
  rw [String.data_append]
  have hlen : (b.data ++ ext.data).length - ext.data.length = b.data.length := by
    simp
  rw [hlen]
  rw [List.take_left]

/-! ## File-store lemmas -/

theorem strDataInj (x y : String) (h : x.data = y.data) : x = y := by
  cases x
  cases y
  exact congrArg String.mk h

theorem strAppend_left_cancel (b x y : String) (h : b ++ x = b ++ y) : x = y := by
  have h2 := congrArg String.data h
  rw [String.data_append, String.data_append] at h2
  exact strDataInj x y (List.append_cancel_left h2)

theorem fsLookup_fsErase (fs : Fs) (p q : String) :
    fsLookup (fsErase fs p) q = if q = p then none else fsLookup fs q := by
  induction fs with
  | nil => simp [fsErase, fsLookup]
  | cons kv rest ih =>
    unfold fsErase
    by_cases h1 : kv.1 = p
    · rw [if_pos h1, ih]
      by_cases h2 : q = p
      · simp [h2]
      · have h3 : ¬ kv.1 = q := fun hc => h2 (hc ▸ h1)
        simp [fsLookup, h2, h3]
    · rw [if_neg h1]
      by_cases h3 : kv.1 = q
      · have h2 : ¬ q = p := fun hc => h1 (h3.trans hc)
        simp [fsLookup, h3, h2]
      · simp [fsLookup, h3, ih]

theorem fsLookup_fsSet (fs : Fs) (p q : String) (f : FileEnt) :
    fsLookup (fsSet fs p f) q = if q = p then some f else fsLookup fs q := by
  unfold fsSet
  by_cases h : q = p
  · simp [fsLookup, h]
  · have h2 : ¬ (p = q) := fun hc => h hc.symm
    simp [fsLookup, h2, fsLookup_fsErase, h]

theorem rmScratchStep_flags (b : String) (w : World) (ext : String) :
    (rmScratchStep b w ext).failRemove = w.failRemove ∧
    (rmScratchStep b w ext).failWrite = w.failWrite ∧
    (rmScratchStep b w ext).failMkdir = w.failMkdir := by
  by_cases h1 : isFileExist w (b ++ ext) <;> by_cases h2 : w.failRemove (b ++ ext) <;>
    simp [rmScratchStep, osRemove, h1, h2]

theorem rmScratchStep_lookup_ne (b : String) (w : World) (ext q : String)
    (hq : q ≠ b ++ ext) :
    fsLookup (rmScratchStep b w ext).fs q = fsLookup w.fs q := by
  by_cases h1 : isFileExist w (b ++ ext) <;> by_cases h2 : w.failRemove (b ++ ext) <;>
    simp [rmScratchStep, osRemove, h1, h2, fsLookup_fsErase, hq]

theorem rmScratchStep_lookup_self (b : String) (w : World) (ext : String)
    (hf : w.failRemove (b ++ ext) = false) :
    fsLookup (rmScratchStep b w ext).fs (b ++ ext) = none := by
  by_cases h1 : isFileExist w (b ++ ext)
  · simp [rmScratchStep, osRemove, h1, hf, fsLookup_fsErase]
  · have h2 : fsLookup w.fs (b ++ ext) = none := by
      rw [isFileExist] at h1
      exact Option.not_isSome_iff_eq_none.1 (by simpa using h1)
    simp [rmScratchStep, h1, h2]

theorem removeScratchFiles_eq (w : World) (p : String) :
    removeScratchFiles w p =
      rmScratchStep (trimDesktopExt p)
        (rmScratchStep (trimDesktopExt p)
          (rmScratchStep (trimDesktopExt p) w ".desktop") ".sh") ".png" := rfl

theorem removeScratchFiles_flags (w : World) (p : String) :
    (removeScratchFiles w p).failRemove = w.failRemove ∧
    (removeScratchFiles w p).failWrite = w.failWrite ∧
    (removeScratchFiles w p).failMkdir = w.failMkdir := by
  rw [removeScratchFiles_eq]
  obtain ⟨a1, a2, a3⟩ := rmScratchStep_flags (trimDesktopExt p) w ".desktop"
  obtain ⟨b1, b2, b3⟩ := rmScratchStep_flags (trimDesktopExt p)
    (rmScratchStep (trimDesktopExt p) w ".desktop") ".sh"
  obtain ⟨c1, c2, c3⟩ := rmScratchStep_flags (trimDesktopExt p)
    (rmScratchStep (trimDesktopExt p) (rmScratchStep (trimDesktopExt p) w ".desktop") ".sh") ".png"
  exact ⟨c1.trans (b1.trans a1), c2.trans (b2.trans a2), c3.trans (b3.trans a3)⟩

theorem removeScratchFiles_lookup_ne (w : World) (p q : String)
    (h1 : q ≠ trimDesktopExt p ++ ".desktop")
    (h2 : q ≠ trimDesktopExt p ++ ".sh")
    (h3 : q ≠ trimDesktopExt p ++ ".png") :
    fsLookup (removeScratchFiles w p).fs q = fsLookup w.fs q := by
  rw [removeScratchFiles_eq]
  rw [rmScratchStep_lookup_ne _ _ _ _ h3, rmScratchStep_lookup_ne _ _ _ _ h2,
    rmScratchStep_lookup_ne _ _ _ _ h1]

theorem extSuffix_ne (b : String) (x y : String) (hxy : x.data ≠ y.data) :
    b ++ x ≠ b ++ y := by
  intro h
  exact hxy (congrArg String.data (strAppend_left_cancel b x y h))

theorem removeScratchFiles_gone (w : World) (p : String)
    (h1 : w.failRemove (trimDesktopExt p ++ ".desktop") = false)
    (h2 : w.failRemove (trimDesktopExt p ++ ".sh") = false)
    (h3 : w.failRemove (trimDesktopExt p ++ ".png") = false) :
    fsLookup (removeScratchFiles w p).fs (trimDesktopExt p ++ ".desktop") = none ∧
    fsLookup (removeScratchFiles w p).fs (trimDesktopExt p ++ ".sh") = none ∧
    fsLookup (removeScratchFiles w p).fs (trimDesktopExt p ++ ".png") = none := by
  rw [removeScratchFiles_eq]
  set b := trimDesktopExt p with hb
  have w1flags := rmScratchStep_flags b w ".desktop"
  set w1 := rmScratchStep b w ".desktop" with hw1
  have w2flags := rmScratchStep_flags b w1 ".sh"
  set w2 := rmScratchStep b w1 ".sh" with hw2
  have ne_d_s : b ++ ".desktop" ≠ b ++ ".sh" := extSuffix_ne b _ _ (by decide)
  have ne_d_p : b ++ ".desktop" ≠ b ++ ".png" := extSuffix_ne b _ _ (by decide)
  have ne_s_p : b ++ ".sh" ≠ b ++ ".png" := extSuffix_ne b _ _ (by decide)
  refine ⟨?_, ?_, ?_⟩
  · rw [rmScratchStep_lookup_ne _ _ _ _ ne_d_p, rmScratchStep_lookup_ne _ _ _ _ ne_d_s]
    exact rmScratchStep_lookup_self b w ".desktop" h1
  · rw [rmScratchStep_lookup_ne _ _ _ _ ne_s_p]
    refine rmScratchStep_lookup_self b w1 ".sh" ?_
    rw [w1flags.1]
    exact h2
  · refine rmScratchStep_lookup_self b w2 ".png" ?_
    rw [w2flags.1, w1flags.1]
    exact h3

/-! ## Concrete fixtures used by witnesses -/

/-- envW is a concrete environment: scratch directory /scratch, trivial
collaborators. -/
def envW : Env :=
  { scratchDir := "/scratch"
    identifyWindow := fun win => ("d:" ++ win.innerId, none)
    newAppInfoFromFile := fun f => ⟨"d:x", f, false⟩
    getExecRes := fun _ => "foo-bin"
    zipDesktopPath := fun p => p }

/-- wW is a concrete fault-free world with an empty file store. -/
def wW : World :=
  { fs := [], failMkdir := false, failWrite := fun _ => false, failRemove := fun _ => false }

/-- winW is a concrete window with title Foo, empty icon. -/
def winW : WindowInfo := ⟨"w:abc", "Foo", ""⟩

/-- entryA is a docked entry backed by /scratch/a.desktop. -/
def entryA : AppEntry := ⟨"A", "d:a", true, some ⟨"d:a", "/scratch/a.desktop", false⟩, none, []⟩

/-- entryB is an undocked entry backed by /scratch/b.desktop. -/
def entryB : AppEntry := ⟨"B", "d:b", false, some ⟨"d:b", "/scratch/b.desktop", false⟩, none, []⟩

/-- w7 is a concrete world holding a full scratch asset set for
/scratch/app1. -/
def w7 : World :=
  { fs := [("/scratch/app1.desktop", ⟨"d", 1⟩), ("/scratch/app1.sh", ⟨"s", 2⟩),
      ("/scratch/app1.png", ⟨"p", 3⟩)]
    failMkdir := false, failWrite := fun _ => false, failRemove := fun _ => false }

/-! ## Claim theorems -/

/-- C8: dockEntry on an entry whose IsDocked field is already true is a
no-op reported as already docked: it returns false with a nil error, and
the entry and the world are returned exactly as given, field for field. -/
theorem claim_c8 (env : Env) (e : AppEntry) (w : World) (h : e.IsDocked = true) :
    dockEntry env e w = ((false, none), e, w) := by
  unfold dockEntry
  rw [h]
  simp

theorem claim_c8_witness :
    dockEntry envW entryA wW = ((false, none), entryA, wW) :=
  claim_c8 envW entryA wW rfl

/-- C2: when the entry is undocked, the classifier asks for scratch
synthesis, and the synthesis fails with some error, dockEntry returns
exactly that error and the entry value untouched — no field (IsDocked,
appInfo, innerId, current) is mutated. -/
theorem claim_c2 (env : Env) (e : AppEntry) (w : World) (err : String) (w1 : World)
    (hnd : e.IsDocked = false)
    (hns : needScratchDesktop env e.appInfo = true)
    (hfail : createScratchDesktopFileWithAppEntry env e w = (.error err, w1)) :
    dockEntry env e w = ((false, some err), e, w1) := by
  unfold dockEntry
  rw [hnd, hns]
  simp only [Bool.false_eq_true, if_false, if_true]
  rw [hfail]

/-- eW2 is an undocked entry with no launcher metadata and no window. -/
def eW2 : AppEntry := ⟨"id2", "w:x", false, none, none, []⟩

theorem claim_c2_witness :
    dockEntry envW eW2 wW = ((false, some "entry.current is nil"), eW2, wW) :=
  claim_c2 envW eW2 wW "entry.current is nil" wW rfl rfl rfl

/-- C3: needScratchDesktop returns true on nil metadata, false on
installed metadata, false when the backing file is directly inside the
scratch directory, and true otherwise; and isFileInDir holds exactly for
the immediate parent directory, with no recursive subdirectory
matching. -/
theorem claim_c3 (env : Env) (a : AppInfo) :
    needScratchDesktop env none = true
    ∧ (a.IsInstalled = true → needScratchDesktop env (some a) = false)
    ∧ (a.IsInstalled = false → isFileInDir a.GetFileName env.scratchDir = true →
        needScratchDesktop env (some a) = false)
    ∧ (a.IsInstalled = false → isFileInDir a.GetFileName env.scratchDir = false →
        needScratchDesktop env (some a) = true)
    ∧ isFileInDir "/scratch/x.desktop" "/scratch" = true
    ∧ isFileInDir "/scratch/sub/x.desktop" "/scratch" = false := by
  refine ⟨rfl, ?_, ?_, ?_, by decide, by decide⟩
  · intro h
    simp [needScratchDesktop, h]
  · intro h1 h2
    simp [needScratchDesktop, h1, h2]
  · intro h1 h2
    simp [needScratchDesktop, h1, h2]

/-- aiInst is installed launcher metadata outside the scratch dir. -/
def aiInst : AppInfo := ⟨"d:i", "/usr/share/applications/i.desktop", true⟩

theorem claim_c3_witness :
    needScratchDesktop envW (some aiInst) = false ∧ needScratchDesktop envW none = true :=
  ⟨(claim_c3 envW aiInst).2.1 rfl, (claim_c3 envW aiInst).1⟩

/-- C9: saveDockedApps leaves the entry collection unchanged and replaces
the persisted list with exactly the portable-encoded launcher file paths of
the docked entries in iteration order; a string is in the output exactly
when it encodes a docked entry's path, so no undocked entry contributes;
on the concrete A-docked/B-undocked pair the output is the single encoded
path of A. -/
theorem claim_c9 (env : Env) (m : Manager) :
    (saveDockedApps env m).Entries = m.Entries
    ∧ (saveDockedApps env m).DockedApps =
        (m.Entries.filter (fun e => e.IsDocked)).map
          (fun e => env.zipDesktopPath (optFileName e.appInfo))
    ∧ (∀ s, s ∈ (saveDockedApps env m).DockedApps ↔
        ∃ e, e ∈ m.Entries ∧ e.IsDocked = true ∧
          s = env.zipDesktopPath (optFileName e.appInfo))
    ∧ (saveDockedApps env (Manager.mk [entryA, entryB] [])).DockedApps =
        [env.zipDesktopPath "/scratch/a.desktop"] := by
  refine ⟨rfl, rfl, ?_, rfl⟩
  intro s
  constructor
  · intro hs
    simp only [saveDockedApps, FilterDocked] at hs
    rcases List.mem_map.1 hs with ⟨e, he, hfe⟩
    rcases List.mem_filter.1 he with ⟨he1, he2⟩
    exact ⟨e, he1, he2, hfe.symm⟩
  · rintro ⟨e, he, hd, hs⟩
    simp only [saveDockedApps, FilterDocked]
    exact List.mem_map.2 ⟨e, List.mem_filter.2 ⟨he, hd⟩, hs.symm⟩

theorem claim_c9_witness :
    (saveDockedApps envW (Manager.mk [entryA, entryB] [])).DockedApps =
      [envW.zipDesktopPath "/scratch/a.desktop"] :=
  (claim_c9 envW (Manager.mk [entryA, entryB] [])).2.2.2

/-- C7: removeScratchFiles, handed any member of a scratch asset set
(descriptor, script, or image), strips the extension to find the shared
base; it never touches a file outside the three siblings of that base, and
when removal faults are absent every sibling of the base is gone afterwards
(files that were already missing are skipped). -/
theorem claim_c7 (w : World) (b given : String)
    (hg : given ∈ ([".desktop", ".sh", ".png"] : List String)) :
    (∀ q, q ≠ b ++ ".desktop" → q ≠ b ++ ".sh" → q ≠ b ++ ".png" →
      fsLookup (removeScratchFiles w (b ++ given)).fs q = fsLookup w.fs q)
    ∧ ((∀ ext ∈ ([".desktop", ".sh", ".png"] : List String),
          w.failRemove (b ++ ext) = false) →
        ∀ ext ∈ ([".desktop", ".sh", ".png"] : List String),
          fsLookup (removeScratchFiles w (b ++ given)).fs (b ++ ext) = none) := by
  have hbase : trimDesktopExt (b ++ given) = b := by
    simp only [List.mem_cons, List.mem_singleton, List.not_mem_nil, or_false] at hg
    rcases hg with hg | hg | hg <;> subst hg
    · exact trimDesktopExt_append b ".desktop" "desktop".data (by decide) (by decide)
        (by decide) (by decide)
    · exact trimDesktopExt_append b ".sh" "sh".data (by decide) (by decide)
        (by decide) (by decide)
    · exact trimDesktopExt_append b ".png" "png".data (by decide) (by decide)
        (by decide) (by decide)
  constructor
  · intro q h1 h2 h3
    exact removeScratchFiles_lookup_ne w (b ++ given) q
      (by rw [hbase]; exact h1) (by rw [hbase]; exact h2) (by rw [hbase]; exact h3)
  · intro hfail
    have hgone := removeScratchFiles_gone w (b ++ given)
      (by rw [hbase]; exact hfail ".desktop" (by simp))
      (by rw [hbase]; exact hfail ".sh" (by simp))
      (by rw [hbase]; exact hfail ".png" (by simp))
    rw [hbase] at hgone
    intro ext hext
    simp only [List.mem_cons, List.mem_singleton, List.not_mem_nil, or_false] at hext
    rcases hext with h | h | h <;> subst h
    · exact hgone.1
    · exact hgone.2.1
    · exact hgone.2.2

theorem claim_c7_witness :
    fsLookup (removeScratchFiles w7 ("/scratch/app1" ++ ".sh")).fs
      ("/scratch/app1" ++ ".desktop") = none :=
  (claim_c7 w7 "/scratch/app1" ".sh" (by simp)).2
    (by intro ext hx; rfl) ".desktop" (by simp)

/-! ## Docked-entry invariant machinery -/

theorem saveDockedApps_entries (env : Env) (m : Manager) :
    (saveDockedApps env m).Entries = m.Entries := rfl

theorem dockedInv_iff (m : Manager) :
    dockedInv m = true ↔
      ∀ e ∈ m.Entries, e.IsDocked = true → e.appInfo.isSome = true := by
  unfold dockedInv
  rw [List.all_eq_true]
  constructor
  · intro h e he hd
    have h2 := h e he
    rw [hd] at h2
    simpa using h2
  · intro h e he
    by_cases hd : e.IsDocked = true
    · simp [hd, h e he hd]
    · have : e.IsDocked = false := by
        cases hx : e.IsDocked
        · rfl
        · exact absurd hx hd
      simp [this]

theorem dockEntry_inv (env : Env) (e : AppEntry) (w : World)
    (he : e.IsDocked = true → e.appInfo.isSome = true) :
    (dockEntry env e w).2.1.IsDocked = true →
      (dockEntry env e w).2.1.appInfo.isSome = true := by
  unfold dockEntry
  by_cases hd : e.IsDocked = true
  · rw [hd]
    simpa using he
  · have hd2 : e.IsDocked = false := by
      cases hx : e.IsDocked
      · rfl
      · exact absurd hx hd
    rw [hd2]
    simp only [Bool.false_eq_true, if_false]
    by_cases hns : needScratchDesktop env e.appInfo = true
    · rw [hns]
      simp only [if_true]
      cases hcr : createScratchDesktopFileWithAppEntry env e w with
      | mk r w1 =>
        cases r with
        | error err =>
          simp only
          intro hcontra
          rw [hd2] at hcontra
          exact absurd hcontra (by simp)
        | ok file =>
          intro _
          rfl
    · have hns2 : needScratchDesktop env e.appInfo = false := by
        cases hx : needScratchDesktop env e.appInfo
        · rfl
        · exact absurd hx hns
      rw [hns2]
      simp only [Bool.false_eq_true, if_false]
      intro _
      cases ha : e.appInfo with
      | none =>
        rw [ha] at hns2
        exact absurd hns2 (by simp [needScratchDesktop])
      | some ai =>
        simp [AppEntry.updateMenu, AppEntry.setPropIsDocked, ha]

theorem undockEntry_isDocked_false (e1 : AppEntry) :
    ((((e1.updateIcon).setPropIsDocked false).updateName).updateMenu).IsDocked = false := rfl

theorem mem_updEntry_cases (m : Manager) (e2 x : AppEntry)
    (hx : x ∈ (m.updEntry e2).Entries) : x = e2 ∨ x ∈ m.Entries := by
  simp only [Manager.updEntry] at hx
  rcases List.mem_map.1 hx with ⟨y, hy, hxy⟩
  by_cases hid : y.Id = e2.Id
  · rw [if_pos hid] at hxy
    exact Or.inl hxy.symm
  · rw [if_neg hid] at hxy
    exact Or.inr (hxy ▸ hy)

theorem undockEntry_inv (env : Env) (m : Manager) (e : AppEntry) (w : World)
    (hm : ∀ x ∈ m.Entries, x.IsDocked = true → x.appInfo.isSome = true) :
    ∀ x ∈ (undockEntry env m e w).1.Entries,
      x.IsDocked = true → x.appInfo.isSome = true := by
  unfold undockEntry
  by_cases hd : e.IsDocked = true
  · rw [hd]
    simp only [Bool.not_true, Bool.false_eq_true, if_false]
    cases hai : e.appInfo with
    | none => exact hm
    | some ai =>
      simp only
      by_cases hwin : e.hasWindow = true
      · rw [hwin]
        simp only [Bool.not_true, Bool.false_eq_true, if_false]
        intro x hx
        rw [saveDockedApps_entries] at hx
        rcases mem_updEntry_cases _ _ x hx with h | h
        · rw [h]
          intro hcontra
          rw [undockEntry_isDocked_false] at hcontra
          exact absurd hcontra (by simp)
        · exact hm x h
      · have hw2 : e.hasWindow = false := by
          cases hx : e.hasWindow
          · rfl
          · exact absurd hx hwin
        rw [hw2]
        simp only [Bool.not_false, if_true]
        intro x hx
        rw [saveDockedApps_entries] at hx
        simp only [Manager.removeAppEntry] at hx
        exact hm x (List.mem_filter.1 hx).1
  · have hd2 : e.IsDocked = false := by
      cases hx : e.IsDocked
      · rfl
      · exact absurd hx hd
    rw [hd2]
    simpa using hm

theorem applyOp_inv (env : Env) (s : Manager × World) (op : DockOp)
    (hm : dockedInv s.1 = true) : dockedInv (applyOp env s op).1 = true := by
  rw [dockedInv_iff] at hm ⊢
  cases op with
  | dock i =>
    cases hf : findEntry s.1 i with
    | none =>
      simp only [applyOp, hf]
      exact hm
    | some e =>
      simp only [applyOp, hf]
      have hent : (if (dockEntry env e s.2).1.1 = true
          then saveDockedApps env (s.1.updEntry (dockEntry env e s.2).2.1)
          else s.1.updEntry (dockEntry env e s.2).2.1).Entries
          = (s.1.updEntry (dockEntry env e s.2).2.1).Entries := by
        split
        · rw [saveDockedApps_entries]
        · rfl
      intro x hx
      rw [hent] at hx
      have hemem : e ∈ s.1.Entries := List.mem_of_find?_eq_some hf
      rcases mem_updEntry_cases _ _ x hx with h | h
      · rw [h]
        exact dockEntry_inv env e s.2 (hm e hemem)
      · exact hm x h
  | undock i =>
    cases hf : findEntry s.1 i with
    | none =>
      simp only [applyOp, hf]
      exact hm
    | some e =>
      simp only [applyOp, hf]
      exact undockEntry_inv env s.1 e s.2 hm

/-- C1: along any sequence of dock and undock operations, the invariant
that every entry with IsDocked true carries non-nil launcher metadata is
preserved: dockEntry attaches metadata before setting the flag (the
classifier guarantees the metadata is already there when synthesis is
skipped), and undockEntry clears metadata only on branches that also clear
the flag or destroy the entry. -/
theorem claim_c1 (env : Env) (ops : List DockOp) (s : Manager × World)
    (hm : dockedInv s.1 = true) :
    dockedInv (applyOps env s ops).1 = true := by
  induction ops generalizing s with
  | nil => exact hm
  | cons op rest ih => exact ih (applyOp env s op) (applyOp_inv env s op hm)

theorem claim_c1_witness :
    dockedInv (applyOps envW (Manager.mk [entryA, eW2] [], wW)
      [DockOp.undock "A", DockOp.dock "id2"]).1 = true :=
  claim_c1 envW [DockOp.undock "A", DockOp.dock "id2"]
    (Manager.mk [entryA, eW2] [], wW) (by decide)

theorem mem_updEntry_of_id (m : Manager) (e2 x : AppEntry)
    (hx : x ∈ (m.updEntry e2).Entries) (hid : x.Id = e2.Id) : x = e2 := by
  simp only [Manager.updEntry] at hx
  rcases List.mem_map.1 hx with ⟨y, hy, hxy⟩
  by_cases h : y.Id = e2.Id
  · rw [if_pos h] at hxy
    exact hxy.symm
  · rw [if_neg h] at hxy
    rw [← hxy] at hid
    exact absurd hid h

/-- C4: undocking a docked entry whose descriptor's immediate parent is the
scratch directory and which has no remaining window removes every entry
with its handle from the tracked set and (absent removal faults) deletes
all three scratch siblings of the descriptor's base, so none of the
.desktop, .sh, .png files exists afterwards. -/
theorem claim_c4 (env : Env) (m : Manager) (e : AppEntry) (w : World) (ai : AppInfo)
    (hd : e.IsDocked = true)
    (hai : e.appInfo = some ai)
    (hsc : isFileInDir ai.GetFileName env.scratchDir = true)
    (hwin : e.hasWindow = false)
    (hf1 : w.failRemove (trimDesktopExt ai.GetFileName ++ ".desktop") = false)
    (hf2 : w.failRemove (trimDesktopExt ai.GetFileName ++ ".sh") = false)
    (hf3 : w.failRemove (trimDesktopExt ai.GetFileName ++ ".png") = false) :
    (∀ x ∈ (undockEntry env m e w).1.Entries, x.Id ≠ e.Id)
    ∧ fsLookup (undockEntry env m e w).2.fs
        (trimDesktopExt ai.GetFileName ++ ".desktop") = none
    ∧ fsLookup (undockEntry env m e w).2.fs
        (trimDesktopExt ai.GetFileName ++ ".sh") = none
    ∧ fsLookup (undockEntry env m e w).2.fs
        (trimDesktopExt ai.GetFileName ++ ".png") = none := by
  have hred : undockEntry env m e w =
      (saveDockedApps env (m.removeAppEntry e), removeScratchFiles w ai.GetFileName) := by
    simp only [undockEntry, hd, hai, hsc, hwin, Bool.not_true, Bool.not_false,
      Bool.false_eq_true, if_false, if_true]
  rw [hred]
  have hgone := removeScratchFiles_gone w ai.GetFileName hf1 hf2 hf3
  refine ⟨?_, hgone.1, hgone.2.1, hgone.2.2⟩
  intro x hx
  rw [saveDockedApps_entries] at hx
  simp only [Manager.removeAppEntry] at hx
  have h2 := (List.mem_filter.1 hx).2
  simpa using h2

/-- e4 is a docked, scratch-backed entry with no windows. -/
def e4 : AppEntry := ⟨"id4", "d:app1", true, some ⟨"d:app1", "/scratch/app1.desktop", false⟩,
  none, []⟩

theorem claim_c4_witness :
    fsLookup (undockEntry envW (Manager.mk [e4] []) e4 w7).2.fs
      (trimDesktopExt "/scratch/app1.desktop" ++ ".sh") = none :=
  (claim_c4 envW (Manager.mk [e4] []) e4 w7 ⟨"d:app1", "/scratch/app1.desktop", false⟩
    rfl rfl (by decide) rfl rfl rfl rfl).2.2.1

/-- C6: undocking a docked, scratch-backed entry that still has a window
distinguishes the two scratch provenances by the descriptor's base name:
with the window-hash marker the committed entry keeps the window-derived
identity and its metadata is cleared to nil, and without it the committed
entry carries the identity and optional metadata returned by window
re-identification; in both cases the dock flag is cleared. -/
theorem claim_c6 (env : Env) (m : Manager) (e : AppEntry) (w : World)
    (ai : AppInfo) (cur : WindowInfo)
    (hd : e.IsDocked = true)
    (hai : e.appInfo = some ai)
    (hsc : isFileInDir ai.GetFileName env.scratchDir = true)
    (hwin : e.hasWindow = true)
    (hcur : e.current = some cur) :
    (strStartsWith (goBase ai.GetFileName) windowHashPrefix = true →
      ∀ x ∈ (undockEntry env m e w).1.Entries, x.Id = e.Id →
        x.innerId = cur.getInnerId ∧ x.appInfo = none ∧ x.IsDocked = false)
    ∧ (strStartsWith (goBase ai.GetFileName) windowHashPrefix = false →
      ∀ x ∈ (undockEntry env m e w).1.Entries, x.Id = e.Id →
        x.innerId = (env.identifyWindow cur).1 ∧ x.appInfo = (env.identifyWindow cur).2
          ∧ x.IsDocked = false) := by
  constructor
  · intro hsp x hx hxid
    simp only [undockEntry, hd, hai, hsc, hwin, hcur, hsp, Bool.not_true, Bool.not_false,
      Bool.false_eq_true, if_false, if_true] at hx
    rw [saveDockedApps_entries] at hx
    have h := mem_updEntry_of_id _ _ x hx hxid
    rw [h]
    exact ⟨rfl, rfl, rfl⟩
  · intro hsp x hx hxid
    simp only [undockEntry, hd, hai, hsc, hwin, hcur, hsp, Bool.not_true, Bool.not_false,
      Bool.false_eq_true, if_false, if_true] at hx
    rw [saveDockedApps_entries] at hx
    have h := mem_updEntry_of_id _ _ x hx hxid
    rw [h]
    exact ⟨rfl, rfl, rfl⟩

/-- e6 is a docked entry whose scratch descriptor carries the window-hash
marker and which still has a window. -/
def e6 : AppEntry := ⟨"id6", "w:abc", true, some ⟨"w:abc", "/scratch/w:abc.desktop", false⟩,
  some winW, [winW]⟩

theorem claim_c6_witness :
    (⟨"id6", "w:abc", false, none, some winW, [winW]⟩ : AppEntry).innerId = winW.getInnerId
    ∧ (⟨"id6", "w:abc", false, none, some winW, [winW]⟩ : AppEntry).appInfo = none
    ∧ (⟨"id6", "w:abc", false, none, some winW, [winW]⟩ : AppEntry).IsDocked = false :=
  (claim_c6 envW (Manager.mk [e6] []) e6 wW ⟨"w:abc", "/scratch/w:abc.desktop", false⟩ winW
    rfl rfl (by decide) rfl rfl).1 (by decide)
    ⟨"id6", "w:abc", false, none, some winW, [winW]⟩ (by decide) rfl

/-- C5: for a window-only entry with title Foo, empty icon and resolved
command foo-bin, scratch synthesis succeeds when no I/O fault occurs: it
returns the identity-derived descriptor path; the script file holds exactly
the command with executable mode; and the descriptor holds the fixed
template with Name Foo, Exec pointing at the script followed by the %U
placeholder, and the generic icon fallback, with mode 0644. -/
theorem claim_c5 (env : Env) (e : AppEntry) (w : World) (win : WindowInfo)
    (hai : e.appInfo = none) (hcur : e.current = some win)
    (htitle : win.displayName = "Foo") (hicon : win.icon = "")
    (hexec : env.getExecRes win = "foo-bin")
    (hmk : w.failMkdir = false)
    (hw1 : w.failWrite (goJoin env.scratchDir (win.innerId ++ ".sh")) = false)
    (hw2 : w.failWrite (goJoin env.scratchDir (addDesktopExt win.innerId)) = false)
    (hneq : goJoin env.scratchDir (win.innerId ++ ".sh") ≠
      goJoin env.scratchDir (addDesktopExt win.innerId)) :
    (createScratchDesktopFileWithAppEntry env e w).1 =
      .ok (goJoin env.scratchDir (addDesktopExt win.innerId))
    ∧ fsLookup (createScratchDesktopFileWithAppEntry env e w).2.fs
        (goJoin env.scratchDir (win.innerId ++ ".sh")) = some ⟨"foo-bin", 0o744⟩
    ∧ fsLookup (createScratchDesktopFileWithAppEntry env e w).2.fs
        (goJoin env.scratchDir (addDesktopExt win.innerId)) =
      some ⟨dockedItemTemplate "Foo"
        (goJoin env.scratchDir (win.innerId ++ ".sh") ++ " %U")
        "application-default-icon", 0o644⟩ := by
  have hsw : strStartsWith "" "data:image" = false := by decide
  refine ⟨?_, ?_, ?_⟩
  · simp only [createScratchDesktopFileWithAppEntry, osMkdirAll, hmk, hai, hcur,
      WindowInfo.getIcon, WindowInfo.getInnerId, WindowInfo.getDisplayName, htitle, hicon,
      AppEntry.getExec, hexec, ioutilWriteFile, hw1, hw2, createScratchDesktopFile,
      hsw, Bool.false_eq_true, if_false, if_true]
  · simp only [createScratchDesktopFileWithAppEntry, osMkdirAll, hmk, hai, hcur,
      WindowInfo.getIcon, WindowInfo.getInnerId, WindowInfo.getDisplayName, htitle, hicon,
      AppEntry.getExec, hexec, ioutilWriteFile, hw1, hw2, createScratchDesktopFile,
      hsw, Bool.false_eq_true, if_false, if_true]
    rw [fsLookup_fsSet, if_neg hneq, fsLookup_fsSet, if_pos rfl]
  · simp only [createScratchDesktopFileWithAppEntry, osMkdirAll, hmk, hai, hcur,
      WindowInfo.getIcon, WindowInfo.getInnerId, WindowInfo.getDisplayName, htitle, hicon,
      AppEntry.getExec, hexec, ioutilWriteFile, hw1, hw2, createScratchDesktopFile,
      hsw, Bool.false_eq_true, if_false, if_true]
    rw [fsLookup_fsSet, if_pos rfl]

/-- e5 is a window-only entry for the window winW. -/
def e5 : AppEntry := ⟨"id5", "w:abc", false, none, some winW, [winW]⟩

theorem claim_c5_witness :
    fsLookup (createScratchDesktopFileWithAppEntry envW e5 wW).2.fs
      (goJoin envW.scratchDir (winW.innerId ++ ".sh")) = some ⟨"foo-bin", 0o744⟩ :=
  (claim_c5 envW e5 wW winW rfl rfl rfl rfl rfl rfl rfl rfl (by decide)).2.1

/-! ## Synthesized-path shape and C10 -/

theorem safeName_of_desktop_suffix (l : List Char) (hslash : '/' ∉ l)
    (hsuf : ∃ t, l = t ++ (".desktop").data) : safeName ⟨l⟩ := by
  obtain ⟨t, ht⟩ := hsuf
  have hlen : l.length = t.length + 8 := by
    rw [ht, List.length_append]
    rfl
  refine ⟨?_, hslash, ?_, ?_⟩
  · intro h
    have h2 : l = [] := h
    rw [h2] at hlen
    simp only [List.length_nil] at hlen
    omega
  · intro h
    have h2 : l = ['.'] := h
    rw [h2] at hlen
    simp only [List.length_cons, List.length_nil] at hlen
    omega
  · intro h
    have h2 : l = ['.', '.'] := h
    rw [h2] at hlen
    simp only [List.length_cons, List.length_nil] at hlen
    omega

theorem addDesktopExt_suffix (s : String) :
    ∃ t, (addDesktopExt s).data = t ++ (".desktop").data := by
  unfold addDesktopExt
  split
  · rename_i h
    obtain ⟨t, ht⟩ := List.isSuffixOf_iff_suffix.mp h
    exact ⟨t, ht.symm⟩
  · exact ⟨s.data, String.data_append s ".desktop"⟩

theorem addDesktopExt_no_slash (s : String) (h : '/' ∉ s.data) :
    '/' ∉ (addDesktopExt s).data := by
  unfold addDesktopExt
  split
  · exact h
  · rw [String.data_append]
    intro hmem
    rcases List.mem_append.1 hmem with h1 | h1
    · exact h h1
    · exact absurd h1 (by decide)

theorem goJoin_data_suffix (d n : String) (hd : goClean d = d) (hn : safeName n) :
    ∃ t, (goJoin d n).data = t ++ n.data := by
  have hdne := clean_fix_data_ne_nil d hd
  have hdstr : d ≠ "" := fun h => hdne (by rw [h])
  have hnne : n ≠ "" := fun h => hn.1 (by rw [h])
  unfold goJoin
  rw [if_neg hdstr, if_neg hnne, goClean_append_safe d n hd hn]
  by_cases h1 : d = "/"
  · rw [if_pos h1]
    exact ⟨['/'], rfl⟩
  · rw [if_neg h1]
    by_cases h2 : d = "."
    · rw [if_pos h2]
      exact ⟨[], by simp⟩
    · rw [if_neg h2]
      exact ⟨d.data ++ ['/'], by simp⟩

theorem createScratch_ok_shape (env : Env) (e : AppEntry) (w : World) (p : String)
    (hok : (createScratchDesktopFileWithAppEntry env e w).1 = .ok p) :
    (∃ ai, e.appInfo = some ai ∧ p = goJoin env.scratchDir (ai.innerId ++ ".desktop"))
    ∨ (∃ cur, e.appInfo = none ∧ e.current = some cur ∧
        p = goJoin env.scratchDir (addDesktopExt cur.getInnerId)) := by
  unfold createScratchDesktopFileWithAppEntry at hok
  cases hmk : w.failMkdir
  case true =>
    simp only [osMkdirAll, hmk, if_true] at hok
    exact Except.noConfusion hok
  case false =>
    simp only [osMkdirAll, hmk, Bool.false_eq_true, if_false] at hok
    cases hai : e.appInfo with
    | some ai =>
      simp only [hai] at hok
      cases hlk : fsLookup w.fs ai.GetFileName with
      | none =>
        simp only [copyFileContents, hlk] at hok
        exact Except.noConfusion hok
      | some f =>
        cases hfw : w.failWrite (goJoin env.scratchDir (ai.innerId ++ ".desktop"))
        case false =>
          simp only [copyFileContents, hlk, hfw, Bool.false_eq_true, if_false] at hok
          injection hok with h
          exact Or.inl ⟨ai, rfl, h.symm⟩
        case true =>
          simp only [copyFileContents, hlk, hfw, if_true] at hok
          exact Except.noConfusion hok
    | none =>
      simp only [hai] at hok
      cases hcur : e.current with
      | none =>
        simp only [hcur] at hok
        exact Except.noConfusion hok
      | some cur =>
        refine Or.inr ⟨cur, rfl, rfl, ?_⟩
        cases hsw : strStartsWith cur.getIcon "data:image" <;>
          cases hdw : w.failWrite (goJoin env.scratchDir (cur.innerId ++ ".png")) <;>
            cases hws : w.failWrite (goJoin env.scratchDir (cur.innerId ++ ".sh")) <;>
              cases hwf : w.failWrite (goJoin env.scratchDir (addDesktopExt cur.innerId)) <;>
                simp only [hcur, hsw, hdw, hws, hwf, dataUriToFile, ioutilWriteFile,
                  createScratchDesktopFile, WindowInfo.getInnerId, Bool.false_eq_true,
                  Bool.true_eq_false, if_false, if_true] at hok <;>
                  first
                    | exact Except.noConfusion hok
                    | (injection hok with h
                       exact h.symm)

/-- C10: a path returned by successful scratch synthesis lies directly in
the scratch directory (its filepath.Dir is exactly the scratch directory)
and carries the .desktop suffix, so launcher metadata backed by that file
makes needScratchDesktop answer false: a dock transition never
re-synthesizes the launcher it has just synthesized. The scratch directory
is assumed to be a clean path and identity tokens slash-free, as the
caller guarantees filesystem-safe names. -/
theorem claim_c10 (env : Env) (e : AppEntry) (w : World) (p : String)
    (hclean : goClean env.scratchDir = env.scratchDir)
    (hsafe1 : ∀ ai, e.appInfo = some ai → '/' ∉ ai.innerId.data)
    (hsafe2 : ∀ cur, e.current = some cur → '/' ∉ cur.innerId.data)
    (hok : (createScratchDesktopFileWithAppEntry env e w).1 = .ok p) :
    goDir p = env.scratchDir
    ∧ (∃ t, p.data = t ++ (".desktop").data)
    ∧ (∀ a : AppInfo, a.GetFileName = p → needScratchDesktop env (some a) = false) := by
  have hname : ∃ name : String, p = goJoin env.scratchDir name ∧ '/' ∉ name.data ∧
      (∃ t, name.data = t ++ (".desktop").data) := by
    rcases createScratch_ok_shape env e w p hok with ⟨ai, hai, hp⟩ | ⟨cur, hai, hcur, hp⟩
    · refine ⟨ai.innerId ++ ".desktop", hp, ?_, ⟨ai.innerId.data, String.data_append _ _⟩⟩
      rw [String.data_append]
      intro hmem
      rcases List.mem_append.1 hmem with h1 | h1
      · exact hsafe1 ai hai h1
      · exact absurd h1 (by decide)
    · exact ⟨addDesktopExt cur.getInnerId, hp,
        addDesktopExt_no_slash _ (hsafe2 cur hcur), addDesktopExt_suffix _⟩
  obtain ⟨name, hp, hnoslash, hsuf⟩ := hname
  have hsafe : safeName name := by
    have h := safeName_of_desktop_suffix name.data hnoslash hsuf
    rwa [strEta] at h
  subst hp
  refine ⟨goDir_goJoin _ _ hclean hsafe, ?_, ?_⟩
  · obtain ⟨t, ht⟩ := goJoin_data_suffix _ _ hclean hsafe
    obtain ⟨t2, ht2⟩ := hsuf
    exact ⟨t ++ t2, by rw [ht, ht2, List.append_assoc]⟩
  · intro a hfa
    have hdir : goDir a.GetFileName = env.scratchDir := by
      rw [hfa]
      exact goDir_goJoin _ _ hclean hsafe
    cases hinst : a.IsInstalled
    · simp [needScratchDesktop, hinst, isFileInDir, hdir]
    · simp [needScratchDesktop, hinst]

theorem claim_c10_witness :
    goDir "/scratch/w:abc.desktop" = envW.scratchDir :=
  (claim_c10 envW e5 wW "/scratch/w:abc.desktop" (by decide)
    (fun ai h => by cases h) (fun cur h => by cases h; decide) rfl).1

end Dock
